import Mathlib

/-!
Verification development for the data-pipeline alignment/derivation engine
(`src/data_pipeline/update_date.py`).

Modelling conventions.  A pandas cell is `Option ℚ`: `none` models a NaN
(missing) cell, `some q` a finite numeric value.  A table column is a
`List (Option ℚ)` ordered by row; a matrix is a `List` of such columns, all
of equal length (column-major layout, since every pandas operation in the
source acts column-wise except `dropna`, which we express over row indices).
Dates are natural numbers (day ordinals), so `resample("D")` becomes the
integer range between the minimum and maximum observed date.
-/

/-- One column step of pandas `ffill`: each `none` cell is replaced by the
last `some` value seen above it (seeded with `last`, `none` at the top of a
frame).  Embeds the `.ffill()` calls in `get_macro` and `main`. -/
def ffillCol (last : Option ℚ) : List (Option ℚ) → List (Option ℚ)
  | [] => []
  | none :: rest => last :: ffillCol last rest
  | some v :: rest => some v :: ffillCol (some v) rest

/-- The last `some` value of a list of cells, seeded with `a`.  This is the
value an `ffill` carries after scanning the list; used to reason about
`ffillCol`. -/
def lastSome (a : Option ℚ) : List (Option ℚ) → Option ℚ
  | [] => a
  | none :: rest => lastSome a rest
  | some v :: rest => lastSome (some v) rest

/-- One cell of pandas `pct_change`: `cur / prev - 1`, NaN when either input
is NaN.  A zero previous value is also modelled as an undefined cell (the
pipeline only ever divides positive prices, so this branch is unreachable in
every theorem below, all of which assume positive prices). -/
def pctCell (prev cur : Option ℚ) : Option ℚ :=
  match prev, cur with
  | some p, some c => if p = 0 then none else some (c / p - 1)
  | _, _ => none

/-- Column semantics of pandas `pct_change(k)` with its default
`fill_method` (pad): the column is forward-filled, then cell `t` compares
row `t` against row `t - k`, with NaN for the first `k` rows and wherever a
forward-filled operand is still NaN (i.e. before the first observation).
Embeds `prices.pct_change()` (`k = 1`) and `prices.pct_change(30)` /
`prices.pct_change(90)`. -/
def pctChangeKCol (k : ℕ) (col : List (Option ℚ)) : List (Option ℚ) :=
  (List.range col.length).map (fun t =>
    if t < k then none
    else pctCell ((ffillCol none col).getD (t - k) none) ((ffillCol none col).getD t none))

/-- Number of rows of a column-major matrix (length of its first column;
all columns of a well-formed frame have equal length). -/
def numRows (cols : List (List (Option ℚ))) : ℕ := (cols.headD []).length

/-- Whether row `t` of a column-major matrix has a (non-NaN) value in every
column; the row predicate of pandas `dropna()` with its default
`how="any"`. -/
def rowDefined (cols : List (List (Option ℚ))) (t : ℕ) : Bool :=
  cols.all (fun c => (c.getD t none).isSome)

/-- Row indices retained by `dropna()`: those whose row is fully defined. -/
def keepRows (cols : List (List (Option ℚ))) : List ℕ :=
  (List.range (numRows cols)).filter (fun t => rowDefined cols t)

/-- Pandas `dropna()` (default `how="any"`, axis 0): drop every row that
contains at least one NaN cell, keeping the rest in order. -/
def dropnaAny (cols : List (List (Option ℚ))) : List (List (Option ℚ)) :=
  cols.map (fun c => (keepRows cols).map (fun t => c.getD t none))

/-- Embeds `compute_returns` of `update_date.py`:
`returns = prices.pct_change().dropna()`. -/
def compute_returns (prices : List (List (Option ℚ))) : List (List (Option ℚ)) :=
  dropnaAny (prices.map (pctChangeKCol 1))

/-- Embeds the momentum factor seeds of `main`: `prices.pct_change(k)` for
`k = 30` (`mom30`) and `k = 90` (`mom90`), computed column by column. -/
def momentumCols (k : ℕ) (prices : List (List (Option ℚ))) : List (List (Option ℚ)) :=
  prices.map (pctChangeKCol k)

/-- Smallest date of a list of day ordinals (`0` when empty, a case the
caller never hits); the left end of the span of `resample("D")` in
`get_macro`. -/
def spanLo (l : List ℕ) : ℕ :=
  match l with
  | [] => 0
  | d :: rest => rest.foldl min d

/-- Largest date of a list of day ordinals (`0` when empty); the right end
of the span of `resample("D")` in `get_macro`. -/
def spanHi (l : List ℕ) : ℕ :=
  match l with
  | [] => 0
  | d :: rest => rest.foldl max d

/-- The daily calendar `[lo, lo+1, ..., hi]` produced by `resample("D")`. -/
def calendarFrom (lo hi : ℕ) : List ℕ :=
  (List.range (hi + 1 - lo)).map (fun t => t + lo)

/-- The sparse value of a macro series at day `d`: the value of its
observation dated `d`, if any.  This is a cell of the outer-joined frame
`pd.concat(frames, axis=1)` before resampling. -/
def sparseAt (obs : List (ℕ × ℚ)) (d : ℕ) : Option ℚ :=
  (obs.find? (fun p => p.1 = d)).map Prod.snd

/-- Embeds `get_macro` of `update_date.py`, seen from the core's boundary:
the network fetches are outside the core, so the input is the list of
already-fetched sparse series (date, value observations, one list per FRED
code, in the order of the `series` dict).  The function outer-joins their
dates, builds the daily calendar spanning the union's min/max dates
(`resample("D")`) and forward-fills every column (`.ffill()`), returning
the calendar together with the column-major MacroDaily matrix.  (The
renaming of columns to canonical indicator names does not affect values
and is not modelled.) -/
def get_macroDaily (sl : List (List (ℕ × ℚ))) : List ℕ × List (List (Option ℚ)) :=
  match (sl.map (fun s => s.map Prod.fst)).flatten with
  | [] => ([], sl.map (fun _ => []))
  | d :: rest =>
    let cal := calendarFrom (spanLo (d :: rest)) (spanHi (d :: rest))
    (cal, sl.map (fun obs => ffillCol none (cal.map (fun e => sparseAt obs e))))

/-- The last observation of a macro series dated `≤ d` (its value), `none`
when every observation is later than `d`.  This is the specification-side
description of a MacroDaily cell ("value at date d equals the last known
observation ≤ d"), to be compared with what `get_macroDaily` computes. -/
def lastObsLE (obs : List (ℕ × ℚ)) (d : ℕ) : Option ℚ :=
  obs.foldl (fun acc p => if p.1 ≤ d then some p.2 else acc) none

/-- Looks up the row of a date-indexed column: the cell at the position of
date `d` in the index `dates`, `none` when `d` is absent from the index.
This is how `rets.join(macro, how="left")` fills a macro cell of a return
row. -/
def lookupAt (dates : List ℕ) (col : List (Option ℚ)) (d : ℕ) : Option ℚ :=
  match dates.findIdx? (fun x => x = d) with
  | some i => col.getD i none
  | none => none

/-- Embeds `df = rets.join(macro, how="left").ffill()` of `main`
(column-major): the joined frame keeps the return index `retsDates` and all
return columns, appends each macro column realigned to the return dates by
index lookup, and then forward-fills every column of the joined frame (the
code's `.ffill()` is applied to the whole frame, not only to the macro
side). -/
def joinLeftFfill (retsDates : List ℕ) (retsCols : List (List (Option ℚ)))
    (macroDates : List ℕ) (macroCols : List (List (Option ℚ))) : List (List (Option ℚ)) :=
  (retsCols ++ macroCols.map (fun mc => retsDates.map (fun d => lookupAt macroDates mc d))).map
    (ffillCol none)

/-- Embeds the dataset-assembly step of `main`: `df = rets.copy()`, then
`df = df.join(macro, how="left").ffill()` only when the credential string
is non-empty (Python truthiness of `fred_key`). -/
def assembleDataset (fred_key : String) (retsDates : List ℕ)
    (retsCols : List (List (Option ℚ))) (macroDates : List ℕ)
    (macroCols : List (List (Option ℚ))) : List (List (Option ℚ)) :=
  if fred_key = "" then retsCols
  else joinLeftFfill retsDates retsCols macroDates macroCols

/-- Whether the assembled dataset includes macro columns.  The source has
no explicit `macro_included` flag; inclusion is governed by the truthiness
test `if fred_key:` at the join site, which this definition names. -/
def macroIncluded (fred_key : String) : Bool :=
  if fred_key = "" then false else true

/-- Models the artifact writes of `main`, in program order, together with
the error (if any) that ends the run.  `main` writes `prices.csv` and
`daily_returns.csv`, then — only when a credential is present — evaluates
`macro = fetch_macro(fred_key)`.  The name `fetch_macro` is bound nowhere
in the module (the macro fetcher is defined as `get_macro`), so Python
raises `NameError` there and the run stops before the features table is
computed; with no credential the macro block is skipped and the run writes
the features artifact and finishes normally. -/
def mainWrites (fred_key : String) : List String × Option String :=
  if fred_key = "" then
    (["data/raw/prices.csv", "data/processed/daily_returns.csv",
      "data/processed/features_basic.csv"], none)
  else
    (["data/raw/prices.csv", "data/processed/daily_returns.csv"],
      some "NameError: name fetch_macro is not defined")

/-- Shape of a `yf.download(...)["Close"]` result: pandas hands back a flat
`Series` when a single ticker is requested, otherwise a `DataFrame` with
one column per ticker (column-major here). -/
inductive PriceResponse where
  | series (vals : List (Option ℚ))
  | frame (cols : List (List (Option ℚ)))

/-- Number of instruments a provider response covers. -/
def instrumentCount : PriceResponse → ℕ
  | PriceResponse.series _ => 1
  | PriceResponse.frame cols => cols.length

/-- Embeds the normalization step of `download_prices`: the
`isinstance(df, pd.Series)` check converts a flat series to a one-column
frame via `to_frame()`; a frame passes through unchanged.  The result is
always a matrix (list of columns), never a flat series. -/
def download_prices (resp : PriceResponse) : List (List (Option ℚ)) :=
  match resp with
  | PriceResponse.series vals => [vals]
  | PriceResponse.frame cols => cols

theorem ffill_length (a : Option ℚ) (xs : List (Option ℚ)) :
    (ffillCol a xs).length = xs.length := by
  induction xs generalizing a with
  | nil => rfl
  | cons x rest ih => cases x <;> simp [ffillCol, ih]

theorem ffill_allSome (a : Option ℚ) (xs : List (Option ℚ))
    (h : ∀ x ∈ xs, x.isSome = true) : ffillCol a xs = xs := by
  induction xs generalizing a with
  | nil => rfl
  | cons x rest ih =>
    cases x with
    | none => simpa using h none (by simp)
    | some v => simp [ffillCol, ih (some v) (fun x hx => h x (by simp [hx]))]

theorem ffill_idem (a : Option ℚ) (xs : List (Option ℚ)) :
    ffillCol a (ffillCol a xs) = ffillCol a xs := by
  induction xs generalizing a with
  | nil => rfl
  | cons x rest ih =>
    cases x with
    | none => cases a <;> simp [ffillCol, ih]
    | some v => simp [ffillCol, ih]

theorem lastSome_append (a : Option ℚ) (xs ys : List (Option ℚ)) :
    lastSome a (xs ++ ys) = lastSome (lastSome a xs) ys := by
  induction xs generalizing a with
  | nil => rfl
  | cons x rest ih => cases x <;> simp [lastSome, ih]

theorem ffill_getD (xs : List (Option ℚ)) (a : Option ℚ) (i : ℕ) (hi : i < xs.length) :
    (ffillCol a xs).getD i none = lastSome a (xs.take (i + 1)) := by
  induction xs generalizing a i with
  | nil => simp at hi
  | cons x rest ih =>
    cases x with
    | none =>
      cases i with
      | zero => simp [ffillCol, lastSome]
      | succ j => simpa [ffillCol, lastSome] using ih a j (by simpa using hi)
    | some v =>
      cases i with
      | zero => simp [ffillCol, lastSome]
      | succ j => simpa [ffillCol, lastSome] using ih (some v) j (by simpa using hi)

theorem lastSome_eq_some (xs : List (Option ℚ)) (a : Option ℚ) (v : ℚ)
    (h : lastSome a xs = some v) :
    (∃ j, ∃ hj : j < xs.length, xs.get ⟨j, hj⟩ = some v) ∨ a = some v := by
  induction xs generalizing a with
  | nil => exact Or.inr h
  | cons x rest ih =>
    cases x with
    | none =>
      rcases ih a (by simpa [lastSome] using h) with ⟨j, hj, hv⟩ | ha
      · exact Or.inl ⟨j + 1, by simpa using hj, by simpa using hv⟩
      · exact Or.inr ha
    | some w =>
      rcases ih (some w) (by simpa [lastSome] using h) with ⟨j, hj, hv⟩ | ha
      · exact Or.inl ⟨j + 1, by simpa using hj, by simpa using hv⟩
      · exact Or.inl ⟨0, by simp, by simpa using ha⟩

theorem lastSome_all_none (a : Option ℚ) (xs : List (Option ℚ))
    (h : ∀ x ∈ xs, x = none) : lastSome a xs = a := by
  induction xs generalizing a with
  | nil => rfl
  | cons x rest ih =>
    cases x with
    | none => simpa [lastSome] using ih a (fun x hx => h x (by simp [hx]))
    | some w => simpa using h (some w) (by simp)

theorem pctCell_none_left (cur : Option ℚ) : pctCell none cur = none := by
  cases cur <;> rfl

theorem pctCell_none_right (prev : Option ℚ) : pctCell prev none = none := by
  cases prev <;> rfl

theorem pctChangeK_length (k : ℕ) (col : List (Option ℚ)) :
    (pctChangeKCol k col).length = col.length := by
  simp [pctChangeKCol]

theorem rangeMap_getD (n : ℕ) (f : ℕ → Option ℚ) (t : ℕ) (ht : t < n) :
    ((List.range n).map f).getD t none = f t := by
  rw [List.getD_eq_getElem?_getD, List.getElem?_map, List.getElem?_range ht]
  rfl

theorem ffill_replicate_append (s : ℕ) (xs : List (Option ℚ)) :
    ffillCol none (List.replicate s none ++ xs) = List.replicate s none ++ ffillCol none xs := by
  induction s with
  | zero => simp
  | succ n ih => simp [List.replicate_succ, ffillCol, ih]

theorem repAppend_getD (s : ℕ) (obs : List ℚ) (t : ℕ) :
    (List.replicate s (none : Option ℚ) ++ obs.map some).getD t none =
      if t < s then none
      else if t - s < obs.length then some (obs.getD (t - s) 0) else none := by
  rw [List.getD_eq_getElem?_getD, List.getElem?_append]
  rcases lt_or_ge t s with h | h
  · simp [h, List.getElem?_replicate]
  · rw [if_neg (by simpa using not_lt.mpr h), if_neg (not_lt.mpr h)]
    simp only [List.length_replicate]
    rcases lt_or_ge (t - s) obs.length with h2 | h2
    · rw [List.getElem?_map, List.getElem?_eq_getElem h2, if_pos h2,
        List.getD_eq_getElem obs 0 h2]
      rfl
    · rw [List.getElem?_map, List.getElem?_eq_none (by simpa using h2), if_neg (not_lt.mpr h2)]
      rfl

theorem pct_k_col (k s : ℕ) (obs : List ℚ) (hk : 0 < k)
    (hpos : ∀ x ∈ obs, 0 < x) (t : ℕ) (ht : t < s + obs.length) :
    ((pctChangeKCol k (List.replicate s none ++ obs.map some)).getD t none = none ↔ t - s < k)
    ∧ (k ≤ t - s →
        (pctChangeKCol k (List.replicate s none ++ obs.map some)).getD t none =
          some (obs.getD (t - s) 0 / obs.getD (t - s - k) 0 - 1)) := by
  have hlen : (List.replicate s (none : Option ℚ) ++ obs.map some).length = s + obs.length := by
    simp
  have hff : ffillCol none (List.replicate s (none : Option ℚ) ++ obs.map some) =
      List.replicate s (none : Option ℚ) ++ obs.map some := by
    rw [ffill_replicate_append, ffill_allSome]
    intro x hx
    rcases List.mem_map.mp hx with ⟨y, _, rfl⟩
    rfl
  have key : (pctChangeKCol k (List.replicate s none ++ obs.map some)).getD t none
      = if t < k then none
        else pctCell ((List.replicate s (none : Option ℚ) ++ obs.map some).getD (t - k) none)
          ((List.replicate s (none : Option ℚ) ++ obs.map some).getD t none) := by
    unfold pctChangeKCol
    rw [rangeMap_getD _ _ t (by rw [hlen]; exact ht), hff]
  by_cases h1 : t < k
  · rw [key, if_pos h1]
    exact ⟨iff_of_true rfl (by omega), fun hc => absurd hc (by omega)⟩
  · rw [key, if_neg h1]
    by_cases h2 : t < s
    · rw [repAppend_getD s obs t, if_pos h2, pctCell_none_right]
      exact ⟨iff_of_true rfl (by omega), fun hc => absurd hc (by omega)⟩
    · by_cases h3 : t - s < k
      · rw [repAppend_getD s obs (t - k), if_pos (by omega : t - k < s), pctCell_none_left]
        exact ⟨iff_of_true rfl h3, fun hc => absurd hc (by omega)⟩
      · have hsub : t - k - s = t - s - k := by omega
        have hidx : t - s - k < obs.length := by omega
        rw [repAppend_getD s obs (t - k), if_neg (by omega : ¬ t - k < s),
          if_pos (by omega : t - k - s < obs.length),
          repAppend_getD s obs t, if_neg (by omega : ¬ t < s),
          if_pos (by omega : t - s < obs.length), hsub]
        have hprev : (0 : ℚ) < obs.getD (t - s - k) 0 := by
          have hmem : obs.getD (t - s - k) 0 ∈ obs := by
            rw [List.getD_eq_getElem obs 0 hidx]
            exact List.getElem_mem hidx
          exact hpos _ hmem
        have hne : obs.getD (t - s - k) 0 ≠ 0 := ne_of_gt hprev
        constructor
        · simp only [pctCell]
          rw [if_neg hne]
          exact iff_of_false (by simp) h3
        · intro _
          simp only [pctCell]
          rw [if_neg hne]

theorem pct_col_allsome (obs : List ℚ) (hpos : ∀ x ∈ obs, 0 < x) (t : ℕ)
    (ht : t < obs.length) :
    ((pctChangeKCol 1 (obs.map some)).getD t none = none ↔ t < 1)
    ∧ (1 ≤ t →
        (pctChangeKCol 1 (obs.map some)).getD t none =
          some (obs.getD t 0 / obs.getD (t - 1) 0 - 1)) := by
  have h := pct_k_col 1 0 obs (by norm_num) hpos t (by simpa using ht)
  simpa using h

theorem compute_returns_allSome (prices : List (List (Option ℚ))) :
    ∀ col ∈ compute_returns prices, ∀ cell ∈ col, cell.isSome = true := by
  intro col hcol cell hcell
  rcases List.mem_map.mp hcol with ⟨c, hc, rfl⟩
  rcases List.mem_map.mp hcell with ⟨t, ht, rfl⟩
  have ht2 := List.mem_filter.mp ht
  have hall := ht2.2
  rw [rowDefined] at hall
  exact List.all_eq_true.mp hall c hc

theorem dense_keepRows (c0 : List ℚ) (P' : List (List ℚ)) (T' : ℕ)
    (hT : ∀ c ∈ c0 :: P', c.length = T' + 1)
    (hpos : ∀ c ∈ c0 :: P', ∀ x ∈ c, 0 < x) :
    keepRows ((c0 :: P').map (fun c => pctChangeKCol 1 (List.map some c))) =
      (List.range T').map Nat.succ := by
  have hchar : ∀ c ∈ c0 :: P', ∀ t, t < T' + 1 →
      (((pctChangeKCol 1 (List.map some c)).getD t none = none ↔ t < 1)
        ∧ (1 ≤ t → (pctChangeKCol 1 (List.map some c)).getD t none =
            some (c.getD t 0 / c.getD (t - 1) 0 - 1))) :=
    fun c hc t ht => pct_col_allsome c (hpos c hc) t (by rw [hT c hc]; exact ht)
  have hnum : numRows ((c0 :: P').map (fun c => pctChangeKCol 1 (List.map some c))) =
      T' + 1 := by
    simp only [numRows, List.map_cons, List.headD_cons, pctChangeK_length,
      List.length_map]
    exact hT c0 (by simp)
  have hrow0 : rowDefined ((c0 :: P').map (fun c => pctChangeKCol 1 (List.map some c))) 0
      = false := by
    have h0 : (pctChangeKCol 1 (List.map some c0)).getD 0 none = none :=
      (hchar c0 (by simp) 0 (by omega)).1.mpr (by norm_num)
    rw [rowDefined]
    apply List.all_eq_false.mpr
    exact ⟨pctChangeKCol 1 (List.map some c0), by simp, by simp only [h0]; simp⟩
  have hrowS : ∀ j, j + 1 < T' + 1 →
      rowDefined ((c0 :: P').map (fun c => pctChangeKCol 1 (List.map some c))) (j + 1)
        = true := by
    intro j hj
    rw [rowDefined]
    apply List.all_eq_true.mpr
    intro c hc
    rcases List.mem_map.mp hc with ⟨c2, hc2, rfl⟩
    have h := (hchar c2 hc2 (j + 1) hj).2 (by omega)
    simp only [h]
    rfl
  rw [keepRows, hnum, List.range_succ_eq_map]
  rw [List.filter_cons_of_neg (by simpa using hrow0)]
  rw [List.filter_map]
  have : List.filter
      ((fun t => rowDefined ((c0 :: P').map (fun c => pctChangeKCol 1 (List.map some c))) t)
        ∘ Nat.succ) (List.range T') = List.range T' := by
    apply List.filter_eq_self.mpr
    intro j hj
    exact hrowS j (by simpa using List.mem_range.mp hj)
  rw [this]

/-- C1 (amended): for every price matrix in which all cells are present and
positive (each of the `C` instrument columns has the same `T` rows),
`compute_returns` keeps the column set unchanged and returns exactly
`T - 1` rows, cell `t` of each column being `price[t+1] / price[t] - 1`
(i.e. `ReturnMatrix[t] = PriceMatrix[t] / PriceMatrix[t-1] - 1` after the
leading row is dropped).  The original claim is refuted by
`returns_row_drop_counterexample_c1`: a missing predecessor price makes
`dropna()` drop the whole row for every instrument, not leave an undefined
cell. -/
theorem returns_shape_of_dense_prices_c1 (P : List (List ℚ)) (T : ℕ)
    (hT : ∀ c ∈ P, c.length = T) (hpos : ∀ c ∈ P, ∀ x ∈ c, 0 < x) :
    compute_returns (P.map (List.map some)) =
      P.map (fun c => (List.range (T - 1)).map (fun t =>
        some (c.getD (t + 1) 0 / c.getD t 0 - 1))) := by
  cases P with
  | nil => rfl
  | cons c0 P' =>
    rw [compute_returns, List.map_map]
    have hcomp : (c0 :: P').map (pctChangeKCol 1 ∘ List.map some) =
        (c0 :: P').map (fun c => pctChangeKCol 1 (List.map some c)) := rfl
    by_cases hT0 : T = 0
    · subst hT0
      have hc0 : c0.length = 0 := hT c0 (by simp)
      rw [hcomp, dropnaAny, keepRows]
      have hnum : numRows (List.map (fun c => pctChangeKCol 1 (List.map some c)) (c0 :: P'))
          = 0 := by
        simp only [List.map_cons, List.headD_cons, numRows, pctChangeK_length,
          List.length_map]
        exact hc0
      rw [hnum]
      simp [Function.comp_def, List.map_const']
    · obtain ⟨T2, rfl⟩ : ∃ T2, T = T2 + 1 := ⟨T - 1, by omega⟩
      rw [hcomp, dropnaAny, dense_keepRows c0 P' T2 hT hpos, List.map_map]
      apply List.map_congr_left
      intro c hc
      simp only [Function.comp, List.map_map]
      have hTr : (T2 + 1) - 1 = T2 := by omega
      rw [hTr]
      apply List.map_congr_left
      intro j hj
      have hj2 : j < T2 := List.mem_range.mp hj
      have h := (pct_col_allsome c (hpos c hc) (j + 1)
        (by rw [hT c hc]; omega)).2 (by omega)
      simpa using h

/-- C1 counterexample: a 2-instrument, 3-row price matrix in which the
second instrument lists one day late (its first price is missing).  The
claim predicts `T - 1 = 2` return rows with an undefined cell for the late
instrument on day 1; the code's `dropna()` instead drops that whole row,
leaving a single return row, so `compute_returns` does not return `T - 1`
rows and instrument A's well-defined day-1 return is discarded. -/
theorem returns_row_drop_counterexample_c1 :
    (compute_returns [[some 1, some 2, some 4], [none, some 2, some 4]]).getD 0 [] =
      [some 1]
    ∧ ((compute_returns [[some 1, some 2, some 4],
        [none, some 2, some 4]]).getD 0 []).length ≠ 3 - 1 := by
  constructor
  · norm_num [compute_returns, dropnaAny, keepRows, numRows, rowDefined, pctChangeKCol,
      pctCell, ffillCol, List.range_succ]
  · norm_num [compute_returns, dropnaAny, keepRows, numRows, rowDefined, pctChangeKCol,
      pctCell, ffillCol, List.range_succ]

/-- Witness for `returns_shape_of_dense_prices_c1` at the dense 1-column,
3-row matrix `[100, 102, 101]`. -/
theorem returns_shape_witness_c1 :
    compute_returns ([[(100 : ℚ), 102, 101]].map (List.map some)) =
      [[(100 : ℚ), 102, 101]].map (fun c => (List.range (3 - 1)).map (fun t =>
        some (c.getD (t + 1) 0 / c.getD t 0 - 1))) :=
  returns_shape_of_dense_prices_c1 [[100, 102, 101]] 3
    (by intro c hc; simp at hc; simp [hc]) (by
      intro c hc x hx
      simp at hc
      subst hc
      fin_cases hx <;> norm_num)

/-- C3 (amended): for an instrument column consisting of `s` missing rows
(before listing) followed by its observed positive prices, `momentum_30`
(`prices.pct_change(30)`) at row `t` is undefined exactly when fewer than
30 prior observed prices exist (`t - s < 30`, counting the observed rows
strictly before `t`), and otherwise equals `price[t] / price[t-30] - 1`.
Hence it is undefined exactly for the first 30 (= k) observed rows of the
instrument, not the first k−1 as the original claim states (refuted by
`momentum_first_k_rows_counterexample_c3`). -/
theorem momentum_window_c3 (prices : List (List (Option ℚ))) (j s : ℕ) (obs : List ℚ)
    (hj : j < prices.length)
    (hcol : prices.getD j [] = List.replicate s none ++ obs.map some)
    (hpos : ∀ x ∈ obs, 0 < x) :
    ∀ t, t < s + obs.length →
      (((momentumCols 30 prices).getD j []).getD t none = none ↔ t - s < 30)
      ∧ (30 ≤ t - s →
          ((momentumCols 30 prices).getD j []).getD t none =
            some (obs.getD (t - s) 0 / obs.getD (t - s - 30) 0 - 1)) := by
  intro t ht
  have hmap : (momentumCols 30 prices).getD j [] = pctChangeKCol 30 (prices.getD j []) := by
    rw [momentumCols, List.getD_eq_getElem?_getD, List.getElem?_map,
      List.getElem?_eq_getElem hj, List.getD_eq_getElem prices [] hj]
    rfl
  rw [hmap, hcol]
  exact pct_k_col 30 s obs (by norm_num) hpos t ht

/-- C3 counterexample: a single instrument observed from row 0 with 31
prices.  Row 29 is beyond the first k−1 = 29 observed rows, so the claim's
"undefined exactly for the first k−1 rows" predicts a defined momentum_30
cell there; the code leaves it undefined (only 29 prior observations
exist — the first defined cell is row 30). -/
theorem momentum_first_k_rows_counterexample_c3 :
    ((momentumCols 30 [List.replicate 31 (some (1 : ℚ))]).getD 0 []).getD 29 none = none
    ∧ 30 - 1 ≤ 29 := by
  exact ⟨by decide, by norm_num⟩

/-- Witness for `momentum_window_c3` at a 1-instrument matrix with two
observed prices and no missing prefix: row 0 has no prior observation, so
its momentum_30 cell is undefined. -/
theorem momentum_window_witness_c3 :
    ((momentumCols 30 [[some (1 : ℚ), some 1]]).getD 0 []).getD 0 none = none :=
  ((momentum_window_c3 [[some 1, some 1]] 0 0 [1, 1] (by norm_num) rfl
    (by intro x hx; fin_cases hx <;> norm_num)) 0 (by norm_num)).1.mpr (by norm_num)

/-- C10: the return matrix produced by `compute_returns` contains no
undefined cell at all — every cell of every column is `some` — and a row
of the percent-change frame is dropped by `dropna()` exactly when at least
one of its cells is undefined, so every retained row is fully defined for
every column. -/
theorem returns_no_undefined_cells_c10 (prices : List (List (Option ℚ))) :
    (∀ col ∈ compute_returns prices, ∀ cell ∈ col, cell.isSome = true)
    ∧ (∀ t, t < numRows (prices.map (pctChangeKCol 1)) →
        (t ∉ keepRows (prices.map (pctChangeKCol 1)) ↔
          ∃ c ∈ prices.map (pctChangeKCol 1), c.getD t none = none)) := by
  constructor
  · exact compute_returns_allSome prices
  · intro t ht
    constructor
    · intro hnot
      by_contra hno
      push_neg at hno
      apply hnot
      rw [keepRows, List.mem_filter]
      refine ⟨List.mem_range.mpr ht, ?_⟩
      rw [rowDefined]
      apply List.all_eq_true.mpr
      intro c hc
      exact Option.ne_none_iff_isSome.mp (hno c hc)
    · rintro ⟨c, hc, hcell⟩ hmem
      have h2 := (List.mem_filter.mp hmem).2
      rw [rowDefined] at h2
      have h3 := List.all_eq_true.mp h2 c hc
      rw [hcell] at h3
      simp at h3

/-- Witness for `returns_no_undefined_cells_c10` at the 1-instrument price
matrix `[1, 2]`: the single cell of the resulting return matrix is
defined. -/
theorem returns_no_undefined_cells_witness_c10 :
    (((compute_returns [[some (1 : ℚ), some 2]]).getD 0 []).getD 0 none).isSome = true := by
  have hlen1 : 0 < (compute_returns [[some (1 : ℚ), some 2]]).length := by decide
  have hcol : (compute_returns [[some (1 : ℚ), some 2]]).getD 0 []
      ∈ compute_returns [[some (1 : ℚ), some 2]] := by
    rw [List.getD_eq_getElem _ _ hlen1]
    exact List.getElem_mem hlen1
  have hlen2 : 0 < ((compute_returns [[some (1 : ℚ), some 2]]).getD 0 []).length := by decide
  have hcell : ((compute_returns [[some (1 : ℚ), some 2]]).getD 0 []).getD 0 none
      ∈ (compute_returns [[some (1 : ℚ), some 2]]).getD 0 [] := by
    rw [List.getD_eq_getElem _ _ hlen2]
    exact List.getElem_mem hlen2
  exact (returns_no_undefined_cells_c10 [[some (1 : ℚ), some 2]]).1 _ hcol _ hcell

theorem foldl_min_le_init (l : List ℕ) (acc : ℕ) : l.foldl min acc ≤ acc := by
  induction l generalizing acc with
  | nil => simp
  | cons x rest ih =>
    rw [List.foldl_cons]
    exact le_trans (ih (min acc x)) (min_le_left acc x)

theorem foldl_min_le_mem (l : List ℕ) (acc : ℕ) (a : ℕ) (ha : a ∈ l) :
    l.foldl min acc ≤ a := by
  induction l generalizing acc with
  | nil => simp at ha
  | cons x rest ih =>
    rw [List.foldl_cons]
    rcases List.mem_cons.mp ha with rfl | ha2
    · exact le_trans (foldl_min_le_init rest (min acc a)) (min_le_right acc a)
    · exact ih (min acc x) ha2

theorem spanLo_le (d : ℕ) (rest : List ℕ) (a : ℕ) (ha : a ∈ d :: rest) :
    spanLo (d :: rest) ≤ a := by
  rcases List.mem_cons.mp ha with rfl | ha2
  · exact foldl_min_le_init rest a
  · exact foldl_min_le_mem rest d a ha2

theorem sparseAt_none_iff (obs : List (ℕ × ℚ)) (e : ℕ) :
    sparseAt obs e = none ↔ ∀ p ∈ obs, p.1 ≠ e := by
  simp [sparseAt, List.find?_eq_none]

theorem lastSome_singleton_none (a : Option ℚ) : lastSome a [none] = a := rfl

theorem lastSome_singleton_some (a : Option ℚ) (v : ℚ) : lastSome a [some v] = some v := rfl

theorem lastObsLE_stable (obs : List (ℕ × ℚ)) (e : ℕ) (h : ∀ p ∈ obs, ¬ p.1 ≤ e) :
    ∀ acc : Option ℚ, obs.foldl (fun acc p => if p.1 ≤ e then some p.2 else acc) acc = acc := by
  induction obs with
  | nil => intro acc; rfl
  | cons q rest ih =>
    intro acc
    rw [List.foldl_cons, if_neg (h q (by simp))]
    exact ih (fun p hp => h p (by simp [hp])) acc

theorem lastObsLE_step_agree (obs : List (ℕ × ℚ)) (dd : ℕ)
    (h : ∀ p ∈ obs, p.1 ≠ dd + 1) :
    ∀ acc : Option ℚ,
      obs.foldl (fun acc p => if p.1 ≤ dd + 1 then some p.2 else acc) acc
        = obs.foldl (fun acc p => if p.1 ≤ dd then some p.2 else acc) acc := by
  induction obs with
  | nil => intro acc; rfl
  | cons q rest ih =>
    intro acc
    rw [List.foldl_cons, List.foldl_cons]
    have h1 : q.1 ≠ dd + 1 := h q (by simp)
    have ih2 := ih (fun p hp => h p (by simp [hp]))
    by_cases h2 : q.1 ≤ dd
    · rw [if_pos (by omega : q.1 ≤ dd + 1), if_pos h2]
      exact ih2 (some q.2)
    · rw [if_neg (by omega : ¬ q.1 ≤ dd + 1), if_neg h2]
      exact ih2 acc

theorem lastObsLE_found : ∀ (obs : List (ℕ × ℚ)) (e : ℕ) (q : ℕ × ℚ),
    List.Pairwise (fun a b => a.1 < b.1) obs →
    obs.find? (fun p => p.1 = e) = some q →
    ∀ acc : Option ℚ,
      obs.foldl (fun acc p => if p.1 ≤ e then some p.2 else acc) acc = some q.2 := by
  intro obs
  induction obs with
  | nil => intro e q _ hfind; simp at hfind
  | cons r rest ih =>
    intro e q hsort hfind acc
    rcases List.pairwise_cons.mp hsort with ⟨hr, hrest⟩
    rw [List.foldl_cons]
    by_cases hre : r.1 = e
    · have hq : q = r := by
        rw [List.find?_cons_of_pos _ (by simp [hre])] at hfind
        exact (Option.some.injEq _ _ ▸ hfind.symm)
      subst hq
      rw [if_pos (le_of_eq hre)]
      exact lastObsLE_stable rest e (fun p hp => by have := hr p hp; omega) (some q.2)
    · rw [List.find?_cons_of_neg _ (by simp [hre])] at hfind
      by_cases h2 : r.1 ≤ e
      · rw [if_pos h2]
        exact ih e q hrest hfind (some r.2)
      · rw [if_neg h2]
        exact ih e q hrest hfind acc

theorem calendarFrom_self (lo : ℕ) : calendarFrom lo lo = [lo] := by
  have h1 : lo + 1 - lo = 1 := by omega
  rw [calendarFrom, h1]
  have h2 : List.range 1 = [0] := rfl
  rw [h2]
  simp

theorem calendarFrom_snoc (lo n : ℕ) :
    calendarFrom lo (lo + (n + 1)) = calendarFrom lo (lo + n) ++ [lo + (n + 1)] := by
  rw [calendarFrom, calendarFrom]
  have h1 : lo + (n + 1) + 1 - lo = (lo + n + 1 - lo) + 1 := by omega
  rw [h1, List.range_succ, List.map_append]
  have h2 : lo + n + 1 - lo = n + 1 := by omega
  simp [h2]
  omega

theorem calendarFrom_take (lo hi2 i : ℕ) (h : i < (calendarFrom lo hi2).length) :
    (calendarFrom lo hi2).take (i + 1) = calendarFrom lo (lo + i) := by
  have hlen : i < hi2 + 1 - lo := by simpa [calendarFrom] using h
  rw [calendarFrom, calendarFrom, ← List.map_take, List.take_range]
  have h1 : min (i + 1) (hi2 + 1 - lo) = i + 1 := by omega
  have h2 : lo + i + 1 - lo = i + 1 := by omega
  rw [h1, h2]

theorem calendarFrom_getD (lo hi2 i : ℕ) (h : i < (calendarFrom lo hi2).length) :
    (calendarFrom lo hi2).getD i 0 = lo + i := by
  have hlen : i < hi2 + 1 - lo := by simpa [calendarFrom] using h
  rw [calendarFrom, List.getD_eq_getElem?_getD, List.getElem?_map, List.getElem?_range hlen]
  simp [Nat.add_comm]

theorem macro_ffill_eq_lastObs (obs : List (ℕ × ℚ)) (lo : ℕ)
    (hsort : List.Pairwise (fun a b => a.1 < b.1) obs)
    (hge : ∀ p ∈ obs, lo ≤ p.1) :
    ∀ i, lastSome none ((calendarFrom lo (lo + i)).map (fun e => sparseAt obs e))
      = lastObsLE obs (lo + i) := by
  intro i
  induction i with
  | zero =>
    rw [Nat.add_zero, calendarFrom_self]
    simp only [List.map_cons, List.map_nil]
    cases hsp : sparseAt obs lo with
    | none =>
      rw [lastSome_singleton_none]
      have hne := (sparseAt_none_iff obs lo).mp hsp
      symm
      exact lastObsLE_stable obs lo
        (fun p hp => by have h1 := hne p hp; have h2 := hge p hp; omega) none
    | some v =>
      rw [lastSome_singleton_some]
      obtain ⟨q, hq, hv⟩ : ∃ q, obs.find? (fun p => p.1 = lo) = some q ∧ q.2 = v := by
        cases hf : obs.find? (fun p => p.1 = lo) with
        | none => rw [sparseAt, hf] at hsp; simp at hsp
        | some q =>
          rw [sparseAt, hf] at hsp
          simp at hsp
          exact ⟨q, rfl, hsp⟩
      rw [← hv]
      exact (lastObsLE_found obs lo q hsort hq none).symm
  | succ n ihn =>
    rw [calendarFrom_snoc, List.map_append]
    rw [lastSome_append]
    simp only [List.map_cons, List.map_nil]
    cases hsp : sparseAt obs (lo + (n + 1)) with
    | none =>
      rw [lastSome_singleton_none, ihn]
      have hne := (sparseAt_none_iff obs (lo + (n + 1))).mp hsp
      symm
      exact lastObsLE_step_agree obs (lo + n) (fun p hp => hne p hp) none
    | some v =>
      rw [lastSome_singleton_some]
      obtain ⟨q, hq, hv⟩ : ∃ q, obs.find? (fun p => p.1 = lo + (n + 1)) = some q ∧ q.2 = v := by
        cases hf : obs.find? (fun p => p.1 = lo + (n + 1)) with
        | none => rw [sparseAt, hf] at hsp; simp at hsp
        | some q =>
          rw [sparseAt, hf] at hsp
          simp at hsp
          exact ⟨q, rfl, hsp⟩
      rw [← hv]
      exact (lastObsLE_found obs (lo + (n + 1)) q hsort hq none).symm

theorem lastObsLE_filter_agnostic (obs : List (ℕ × ℚ)) (dd : ℕ) :
    ∀ acc : Option ℚ,
      obs.foldl (fun acc p => if p.1 ≤ dd then some p.2 else acc) acc
        = (obs.filter (fun p => p.1 ≤ dd)).foldl
            (fun acc p => if p.1 ≤ dd then some p.2 else acc) acc := by
  induction obs with
  | nil => intro acc; rfl
  | cons q rest ih =>
    intro acc
    rw [List.foldl_cons, List.filter_cons]
    by_cases h : q.1 ≤ dd
    · rw [if_pos h, if_pos (by simpa using h), List.foldl_cons, if_pos h]
      exact ih (some q.2)
    · rw [if_neg h, if_neg (by simpa using h)]
      exact ih acc

theorem get_macroDaily_cell (sl : List (List (ℕ × ℚ))) (j i : ℕ)
    (hj : j < sl.length)
    (hsort : List.Pairwise (fun a b => a.1 < b.1) (sl.getD j []))
    (hi : i < (get_macroDaily sl).1.length) :
    ((get_macroDaily sl).2.getD j []).getD i none
      = lastObsLE (sl.getD j []) ((get_macroDaily sl).1.getD i 0) := by
  cases hfl : (sl.map (fun s => s.map Prod.fst)).flatten with
  | nil =>
    exfalso
    have hnil : (get_macroDaily sl).1 = [] := by
      simp only [get_macroDaily, hfl]
    rw [hnil] at hi
    simp at hi
  | cons d rest =>
    have hmain : get_macroDaily sl =
        (calendarFrom (spanLo (d :: rest)) (spanHi (d :: rest)),
          sl.map (fun obs => ffillCol none
            ((calendarFrom (spanLo (d :: rest)) (spanHi (d :: rest))).map
              (fun e => sparseAt obs e)))) := by
      simp only [get_macroDaily, hfl]
    rw [hmain] at hi ⊢
    simp only at hi ⊢
    have hcol : (sl.map (fun obs => ffillCol none
        ((calendarFrom (spanLo (d :: rest)) (spanHi (d :: rest))).map
          (fun e => sparseAt obs e)))).getD j []
        = ffillCol none ((calendarFrom (spanLo (d :: rest)) (spanHi (d :: rest))).map
            (fun e => sparseAt (sl.getD j []) e)) := by
      rw [List.getD_eq_getElem?_getD, List.getElem?_map, List.getElem?_eq_getElem hj,
        List.getD_eq_getElem sl [] hj]
      rfl
    rw [hcol]
    have hlen : i < ((calendarFrom (spanLo (d :: rest)) (spanHi (d :: rest))).map
        (fun e => sparseAt (sl.getD j []) e)).length := by simpa using hi
    rw [ffill_getD _ none i hlen]
    rw [← List.map_take, calendarFrom_take _ _ i hi]
    rw [calendarFrom_getD _ _ i hi]
    have hge : ∀ p ∈ sl.getD j [], spanLo (d :: rest) ≤ p.1 := by
      intro p hp
      have hmem1 : (sl.getD j []) ∈ sl := by
        rw [List.getD_eq_getElem sl [] hj]
        exact List.getElem_mem hj
      have hmem2 : p.1 ∈ ((sl.getD j []).map Prod.fst) := List.mem_map.mpr ⟨p, hp, rfl⟩
      have hmem3 : ((sl.getD j []).map Prod.fst) ∈ sl.map (fun s => s.map Prod.fst) :=
        List.mem_map.mpr ⟨_, hmem1, rfl⟩
      have hmem4 : p.1 ∈ (sl.map (fun s => s.map Prod.fst)).flatten :=
        List.mem_flatten.mpr ⟨_, hmem3, hmem2⟩
      rw [hfl] at hmem4
      exact spanLo_le d rest p.1 hmem4
    exact macro_ffill_eq_lastObs (sl.getD j []) (spanLo (d :: rest)) hsort hge i

/-- C4: no look-ahead in the macro aligner.  For every set of fetched macro
series (each sorted by strictly increasing date) and every date of the
output daily calendar, the MacroDaily cell equals the value of the last
observation dated `≤ d` of that indicator (`lastObsLE`) — in particular it
is never backward-filled — and any other input whose observations dated
`≤ d` agree (and whose calendar also covers `d`) yields the same value at
`d`, so the cell depends only on observations with date `≤ d`. -/
theorem macro_no_lookahead_c4 (sl : List (List (ℕ × ℚ))) (j i : ℕ)
    (hj : j < sl.length)
    (hsort : List.Pairwise (fun a b => a.1 < b.1) (sl.getD j []))
    (hi : i < (get_macroDaily sl).1.length) :
    ((get_macroDaily sl).2.getD j []).getD i none
      = lastObsLE (sl.getD j []) ((get_macroDaily sl).1.getD i 0)
    ∧ ∀ (sl2 : List (List (ℕ × ℚ))) (j2 i2 : ℕ),
        j2 < sl2.length →
        List.Pairwise (fun a b => a.1 < b.1) (sl2.getD j2 []) →
        i2 < (get_macroDaily sl2).1.length →
        (get_macroDaily sl2).1.getD i2 0 = (get_macroDaily sl).1.getD i 0 →
        (sl2.getD j2 []).filter (fun p => p.1 ≤ (get_macroDaily sl).1.getD i 0)
          = (sl.getD j []).filter (fun p => p.1 ≤ (get_macroDaily sl).1.getD i 0) →
        ((get_macroDaily sl2).2.getD j2 []).getD i2 none
          = ((get_macroDaily sl).2.getD j []).getD i none := by
  refine ⟨get_macroDaily_cell sl j i hj hsort hi, ?_⟩
  intro sl2 j2 i2 hj2 hsort2 hi2 hdate hagree
  rw [get_macroDaily_cell sl j i hj hsort hi,
    get_macroDaily_cell sl2 j2 i2 hj2 hsort2 hi2, hdate]
  rw [lastObsLE, lastObsLE,
    lastObsLE_filter_agnostic (sl2.getD j2 []) ((get_macroDaily sl).1.getD i 0) none,
    lastObsLE_filter_agnostic (sl.getD j []) ((get_macroDaily sl).1.getD i 0) none,
    hagree]

/-- Witness for `macro_no_lookahead_c4`: a single indicator observed on
days 2 and 4; on calendar day 3 (index 1) the MacroDaily cell equals the
last observation dated `≤ 3`. -/
theorem macro_no_lookahead_witness_c4 :
    ((get_macroDaily [[(2, (3 : ℚ)), (4, 7)]]).2.getD 0 []).getD 1 none
      = lastObsLE [(2, (3 : ℚ)), (4, 7)]
          ((get_macroDaily [[(2, (3 : ℚ)), (4, 7)]]).1.getD 1 0) :=
  (macro_no_lookahead_c4 [[(2, 3), (4, 7)]] 0 1 (by norm_num)
    (by simp) (by decide)).1

/-- C5: forward-fill is idempotent on MacroDaily — re-applying the
column-wise `ffill` to the table produced by the aligner leaves every
column unchanged. -/
theorem macro_ffill_idempotent_c5 (sl : List (List (ℕ × ℚ))) :
    (get_macroDaily sl).2.map (ffillCol none) = (get_macroDaily sl).2 := by
  cases hfl : (sl.map (fun s => s.map Prod.fst)).flatten with
  | nil =>
    simp only [get_macroDaily, hfl]
    rw [List.map_map]
    apply List.map_congr_left
    intro obs _
    rfl
  | cons d rest =>
    simp only [get_macroDaily, hfl]
    rw [List.map_map]
    apply List.map_congr_left
    intro obs _
    exact ffill_idem none _

/-- C8 counterexample: for the single indicator {day 1: 5.0, day 5: 5.25},
the aligner's calendar spans the observation dates 1..5 (`resample("D")`
covers the min/max of the index), so MacroDaily has five rows, not the six
rows over days 1–6 asserted by the claim. -/
theorem macro_example_span_counterexample_c8 :
    (get_macroDaily [[(1, 5), (5, 21/4)]]).1 = [1, 2, 3, 4, 5]
    ∧ (get_macroDaily [[(1, 5), (5, 21/4)]]).1 ≠ [1, 2, 3, 4, 5, 6] := by
  exact ⟨by decide, by decide⟩

/-- C8 (amended): for the single indicator {day 1: 5.0, day 5: 5.25}, the
aligner resamples over the daily calendar spanning the observations'
min/max dates (days 1–5) and forward-fills, yielding the MacroDaily series
[5.0, 5.0, 5.0, 5.0, 5.25]. -/
theorem macro_example_days_1_to_5_c8 :
    get_macroDaily [[(1, 5), (5, 21/4)]] =
      ([1, 2, 3, 4, 5], [[some 5, some 5, some 5, some 5, some (21/4)]]) := by
  norm_num [get_macroDaily, calendarFrom, spanLo, spanHi, sparseAt, ffillCol,
    List.range_succ]

theorem findIdx?_imp_mem : ∀ (dates : List ℕ) (d s i : ℕ),
    List.findIdx? (fun x => x = d) dates s = some i → d ∈ dates := by
  intro dates
  induction dates with
  | nil => intro d s i h; simp at h
  | cons x rest ih =>
    intro d s i h
    rw [List.findIdx?_cons] at h
    by_cases hx : x = d
    · simp [hx]
    · rw [if_neg (by simpa using hx)] at h
      exact List.mem_cons.mpr (Or.inr (ih d (s + 1) i h))

theorem lookupAt_some_mem (macroDates : List ℕ) (mc : List (Option ℚ)) (d : ℕ) (v : ℚ)
    (h : lookupAt macroDates mc d = some v) : d ∈ macroDates := by
  rw [lookupAt] at h
  cases hf : macroDates.findIdx? (fun x => x = d) with
  | none => rw [hf] at h; simp at h
  | some i => exact findIdx?_imp_mem macroDates d 0 i hf

/-- C2: in the assembled dataset `rets.join(macro, how="left").ffill()`,
every return column equals the corresponding column of the return matrix
cell for cell — the trailing `.ffill()` touches the whole frame, but the
return matrix produced by `compute_returns` contains no NaN (its `dropna()`
removed every incomplete row), so return columns are never actually
forward-filled — while every defined macro cell on a return date `d` comes
from a MacroDaily row dated `≤ d` (macro gaps are filled only from macro's
own past). -/
theorem join_preserves_return_columns_c2 (prices : List (List (Option ℚ)))
    (retsDates : List ℕ) (macroDates : List ℕ) (macroCols : List (List (Option ℚ)))
    (hsorted : List.Pairwise (fun a b => a ≤ b) retsDates) :
    (∀ j, j < (compute_returns prices).length →
      (joinLeftFfill retsDates (compute_returns prices) macroDates macroCols).getD j []
        = (compute_returns prices).getD j [])
    ∧ (∀ m i v, m < macroCols.length → i < retsDates.length →
        ((joinLeftFfill retsDates (compute_returns prices) macroDates macroCols).getD
          ((compute_returns prices).length + m) []).getD i none = some v →
        ∃ d ∈ macroDates, d ≤ retsDates.getD i 0
          ∧ lookupAt macroDates (macroCols.getD m []) d = some v) := by
  constructor
  · intro j hj
    have hmemE : (compute_returns prices)[j] ∈ compute_returns prices :=
      List.getElem_mem hj
    have hsome := compute_returns_allSome prices _ hmemE
    rw [joinLeftFfill, List.getD_eq_getElem?_getD, List.getElem?_map, List.getElem?_append,
      if_pos hj, List.getElem?_eq_getElem hj, Option.map_some', Option.getD_some,
      List.getD_eq_getElem _ _ hj]
    exact ffill_allSome none _ hsome
  · intro m i v hm hi hval
    have hidx : (compute_returns prices).length + m - (compute_returns prices).length = m := by
      omega
    have hcolid : (joinLeftFfill retsDates (compute_returns prices) macroDates
        macroCols).getD ((compute_returns prices).length + m) []
        = ffillCol none (retsDates.map (fun d => lookupAt macroDates (macroCols[m]) d)) := by
      rw [joinLeftFfill, List.getD_eq_getElem?_getD, List.getElem?_map, List.getElem?_append,
        if_neg (by omega : ¬ (compute_returns prices).length + m
          < (compute_returns prices).length), hidx, List.getElem?_map,
        List.getElem?_eq_getElem hm, Option.map_some', Option.map_some', Option.getD_some]
    rw [hcolid] at hval
    have hlen2 : i < (retsDates.map
        (fun d => lookupAt macroDates (macroCols[m]) d)).length := by simpa using hi
    rw [ffill_getD _ none i hlen2, ← List.map_take] at hval
    rcases lastSome_eq_some _ _ _ hval with ⟨t, ht, hget⟩ | hnone
    · have ht2 : t < (retsDates.take (i + 1)).length := by simpa using ht
      have hgetE : lookupAt macroDates (macroCols[m]) ((retsDates.take (i + 1))[t])
          = some v := by
        rw [List.get_eq_getElem, List.getElem_map] at hget
        exact hget
      have htlen : t < retsDates.length := by
        have h4 := List.length_take_le (i + 1) retsDates
        omega
      have hti : t ≤ i := by
        have h5 : (retsDates.take (i + 1)).length ≤ i + 1 := List.length_take_le _ _
        omega
      have hdw : (retsDates.take (i + 1))[t] = retsDates[t] := List.getElem_take retsDates
      rw [hdw] at hgetE
      refine ⟨retsDates[t], lookupAt_some_mem _ _ _ _ hgetE, ?_, ?_⟩
      · rw [List.getD_eq_getElem _ _ hi]
        rcases Nat.lt_or_ge t i with hlt | hge
        · exact List.pairwise_iff_getElem.mp hsorted t i htlen hi hlt
        · have : t = i := by omega
          subst this
          exact le_refl _
      · rw [List.getD_eq_getElem _ _ hm]
        exact hgetE
    · simp at hnone

/-- Witness for `join_preserves_return_columns_c2`: joining the one-column
return matrix of prices `[1, 2]` (return date 10) against a macro table
dated 9 and forward-filling leaves the return column unchanged. -/
theorem join_preserves_return_columns_witness_c2 :
    (joinLeftFfill [10] (compute_returns [[some (1 : ℚ), some 2]]) [9] [[some 5]]).getD 0 []
      = (compute_returns [[some (1 : ℚ), some 2]]).getD 0 [] :=
  (join_preserves_return_columns_c2 [[some 1, some 2]] [10] [9] [[some 5]]
    (by simp)).1 0 (by decide)

/-- C6: with no macro credential (`fred_key = ""`), the macro component is
skipped — the run is a normal, error-free path: no macro artifact is
written, the assembled dataset is exactly the return matrix (returns-only
data), the macro-inclusion indicator is `false`, and `main` still writes
the returns and features artifacts and finishes without error. -/
theorem skip_macro_without_credential_c6 (retsDates : List ℕ)
    (retsCols : List (List (Option ℚ))) (macroDates : List ℕ)
    (macroCols : List (List (Option ℚ))) :
    assembleDataset "" retsDates retsCols macroDates macroCols = retsCols
    ∧ macroIncluded "" = false
    ∧ mainWrites "" = (["data/raw/prices.csv", "data/processed/daily_returns.csv",
        "data/processed/features_basic.csv"], none) := by
  refine ⟨?_, ?_, ?_⟩
  · simp [assembleDataset]
  · simp [macroIncluded]
  · simp [mainWrites]

/-- C7: the code cannot survive the macro stage when a credential is
present — `main` evaluates `fetch_macro(fred_key)`, a name that is bound
nowhere in the module (the fetcher is defined as `get_macro`), so the run
raises `NameError` after writing prices and returns and never writes the
features artifact.  A macro-stage failure therefore blocks
returns/features, contradicting the claim; this is a slip in the code (its
own comments and final status print promise the features artifact). -/
theorem macro_failure_blocks_features_c7 :
    mainWrites "abc" = (["data/raw/prices.csv", "data/processed/daily_returns.csv"],
      some "NameError: name fetch_macro is not defined")
    ∧ "data/processed/features_basic.csv" ∉ (mainWrites "abc").1 := by
  refine ⟨?_, ?_⟩
  · simp [mainWrites]
  · simp [mainWrites]

/-- C9: a provider response covering exactly one instrument normalizes to a
one-column price matrix — a flat series is wrapped into a one-column frame
(`to_frame()`), and a one-column frame passes through — so downstream
logic sees a matrix for 1..N instruments alike. -/
theorem single_instrument_one_column_c9 :
    (∀ resp : PriceResponse, instrumentCount resp = 1 → (download_prices resp).length = 1)
    ∧ ∀ vals : List (Option ℚ), download_prices (PriceResponse.series vals) = [vals] := by
  constructor
  · intro resp h
    cases resp with
    | series vals => rfl
    | frame cols => simpa [download_prices, instrumentCount] using h
  · intro vals
    rfl

/-- Witness for `single_instrument_one_column_c9` at a one-element series
response. -/
theorem single_instrument_one_column_witness_c9 :
    (download_prices (PriceResponse.series [some (3 : ℚ)])).length = 1 :=
  single_instrument_one_column_c9.1 (PriceResponse.series [some 3]) rfl
